import Mathlib

/-
Verification of the job-listing ingestion/deduplication pipeline and its
query layer, together with the JobList UI pagination and fetch logic.

The repository ships only the frontend sources (JobList.vue and friends);
the backend pipeline (normalizer, listing store, dedup/ingest orchestrator,
scrape-run coordinator, query service) is declared and exercised by the
README, requirements and frontend callers but its code is not in the tree.
Those components are therefore modelled from the specification, as marked
on each definition.  The JobList.vue pagination and fetch state machines
are embedded directly from the component source.
-/

namespace JobSearch

/-! ## Data model -/

/-- Modelled from the spec: `status` enum of a `JobListing`
(`new, viewed, applied, rejected, archived`). -/
inductive Status where
  | new
  | viewed
  | applied
  | rejected
  | archived
deriving DecidableEq, Repr

/-- Modelled from the spec: a raw posting is a loosely-typed record produced
by a source adapter; every field may be absent.  The `source` tag names the
adapter that produced it. -/
structure RawPosting where
  source : Option String
  job_url : Option String
  title : Option String
  company : Option String
  location : Option String
  date_posted : Option String
  job_type : Option String
  salary_text : Option String
  description_text : Option String
deriving DecidableEq, Repr

/-- Modelled from the spec: the dedup key, derived either from
`(source, normalized url)` or, when no URL is present, from the
case-insensitive whitespace-collapsed `(source, title, company, location)`
tuple. -/
inductive IdentityKey where
  | byUrl (source url : String)
  | byFields (source title company location : String)
deriving DecidableEq, Repr

/-- Modelled from the spec: normalizer output - the canonical listing shape
minus the store-assigned fields (`numeric_id`, `scraped_timestamp`,
`status`). -/
structure Listing where
  identity_key : IdentityKey
  title : String
  company : String
  location : String
  source : String
  date_posted : Option String
  job_type : Option String
  salary_text : Option String
  description_text : Option String
  emails : List String
deriving DecidableEq, Repr

/-- Modelled from the spec: a persisted `JobListing` row: the canonical
listing plus the client-owned `status`, the ingestion-time
`scraped_timestamp` and the store-assigned `numeric_id`. -/
structure Row where
  listing : Listing
  status : Status
  scraped_timestamp : Nat
  numeric_id : Nat
deriving DecidableEq, Repr

/-- Modelled from the spec: the Listing Store, a durable table of rows plus
the next `numeric_id` to assign (monotonically increasing, never reused).
Rows are kept in insertion order, which coincides with ascending
`numeric_id`. -/
structure Store where
  rows : List Row
  nextId : Nat
deriving DecidableEq, Repr

def emptyStore : Store := ⟨[], 0⟩

/-! ## Canonical Record Normalizer (spec 4.1) -/

/-- ASCII lowercasing of one character. -/
def lowerChar (c : Char) : Char :=
  if 'A' ≤ c ∧ c ≤ 'Z' then Char.ofNat (c.toNat + 32) else c

/-- Drop everything from the first `?` on. -/
def stripQuery : List Char → List Char
  | [] => []
  | c :: t => if c = '?' then [] else c :: stripQuery t

/-- Modelled from the spec: URL normalization - strip the query-parameter
tail and lowercase (the spec lowercases scheme/host; the model lowercases
the whole stripped URL, which is deterministic and at least as coarse). -/
def normalizeUrl (u : String) : String :=
  String.mk ((stripQuery u.data).map lowerChar)

/-- Split a character list into space-separated words, dropping empty
runs; `cur` accumulates the current word reversed. -/
def wordsAux : List Char → List Char → List (List Char)
  | [], cur => if cur.isEmpty then [] else [cur.reverse]
  | c :: t, cur =>
    if c = ' ' then
      (if cur.isEmpty then wordsAux t [] else cur.reverse :: wordsAux t [])
    else wordsAux t (c :: cur)

def words (cs : List Char) : List (List Char) := wordsAux cs []

/-- Rejoin words with single spaces. -/
def joinSpace : List (List Char) → List Char
  | [] => []
  | [w] => w
  | w :: ws => w ++ ' ' :: joinSpace ws

/-- Modelled from the spec: collapse runs of whitespace and lowercase, used
for the no-URL identity tuple. -/
def canonField (s : String) : String :=
  String.mk (joinSpace (words (s.data.map lowerChar)))

/-- Modelled from the spec: email extraction from the free-text description
via a token scan, deduplicated. -/
def extractEmails (d : Option String) : List String :=
  match d with
  | none => []
  | some t =>
    (((words t.data).filter (fun w => w.any (fun c => c = '@'))).map String.mk).eraseDups

/-- Modelled from the spec: `identity_key` computation.  A non-empty URL
keys on `(source, normalized url)`; otherwise the canonicalized
`(source, title, company, location)` tuple is used. -/
def mkIdentityKey (s : String) (raw : RawPosting) : IdentityKey :=
  match raw.job_url with
  | some u =>
    if u = "" then
      .byFields s (canonField (raw.title.getD "N/A")) (canonField (raw.company.getD "N/A"))
        (canonField (raw.location.getD "N/A"))
    else .byUrl s (normalizeUrl u)
  | none =>
    .byFields s (canonField (raw.title.getD "N/A")) (canonField (raw.company.getD "N/A"))
      (canonField (raw.location.getD "N/A"))

/-- Modelled from the spec: the canonical listing produced for a raw posting
with recognized source tag `s`.  Missing display fields default to
`"N/A"`. -/
def mkListing (s : String) (raw : RawPosting) : Listing :=
  { identity_key := mkIdentityKey s raw
  , title := raw.title.getD "N/A"
  , company := raw.company.getD "N/A"
  , location := raw.location.getD "N/A"
  , source := s
  , date_posted := raw.date_posted
  , job_type := raw.job_type
  , salary_text := raw.salary_text
  , description_text := raw.description_text
  , emails := extractEmails raw.description_text }

/-- Modelled from the spec: the single failure mode of the normalizer. -/
inductive NormalizationError where
  | missingOrUnknownSource
deriving DecidableEq, Repr

/-- True when the raw posting carries a recognized source tag. -/
def sourceValid (srcs : List String) (raw : RawPosting) : Bool :=
  match raw.source with
  | none => false
  | some s => decide (s ∈ srcs)

/-- Modelled from the spec: `normalize(raw_posting, source)` - fails only
when the source tag is missing or unrecognized; otherwise produces the
canonical listing with `"N/A"` defaults. -/
def normalize (srcs : List String) (raw : RawPosting) : Except NormalizationError Listing :=
  match raw.source with
  | none => .error .missingOrUnknownSource
  | some s => if s ∈ srcs then .ok (mkListing s raw) else .error .missingOrUnknownSource

/-! ## Listing Store operations (spec 4.2) -/

/-- Does the store already hold a row with this identity key? -/
def hasKey (s : Store) (k : IdentityKey) : Bool :=
  s.rows.any fun r => decide (r.listing.identity_key = k)

/-- Modelled from the spec: row creation on first sighting - `status`
defaults to `new`, `scraped_timestamp` is the ingestion time. -/
def mkRow (l : Listing) (id now : Nat) : Row :=
  ⟨l, .new, now, id⟩

/-- Append a fresh row, consuming the next numeric id. -/
def insertRow (s : Store) (l : Listing) (now : Nat) : Store :=
  { rows := s.rows ++ [mkRow l s.nextId now], nextId := s.nextId + 1 }

/-- Modelled from the spec: `upsert_if_absent` - atomic test-and-set on
`identity_key`; a duplicate key leaves the store untouched. -/
def upsertIfAbsent (s : Store) (l : Listing) (now : Nat) : Store × Bool :=
  if hasKey s l.identity_key then (s, false) else (insertRow s l now, true)

/-! ## Dedup/Ingest Orchestrator (spec 4.3) -/

/-- Modelled from the spec: `IngestStats` - `total` counts the raw postings
handed to `ingest`; normalization failures are counted separately
(spec 7: every skip increments a visible counter). -/
structure IngestStats where
  total : Nat
  inserted : Nat
  duplicates : Nat
  failures : Nat
deriving DecidableEq, Repr

/-- Intermediate result of the ingest loop. -/
structure IngestOut where
  store : Store
  inserted : Nat
  duplicates : Nat
  failures : Nat
deriving DecidableEq, Repr

def bumpIns (o : IngestOut) : IngestOut := { o with inserted := o.inserted + 1 }
def bumpDup (o : IngestOut) : IngestOut := { o with duplicates := o.duplicates + 1 }
def bumpFail (o : IngestOut) : IngestOut := { o with failures := o.failures + 1 }

/-- Modelled from the spec: the ingest loop.  Each raw posting is
normalized; a failure is counted and skipped; a key already produced
earlier in the same batch (`seen`) is collapsed before hitting the store
and counted as a duplicate; otherwise the listing goes through
`upsert_if_absent`, counting an insert or a store-level duplicate. -/
def ingestAux (srcs : List String) (now : Nat) :
    List RawPosting → Store → List IdentityKey → IngestOut
  | [], s, _ => ⟨s, 0, 0, 0⟩
  | p :: ps, s, seen =>
    match normalize srcs p with
    | .error _ => bumpFail (ingestAux srcs now ps s seen)
    | .ok l =>
      if l.identity_key ∈ seen then
        bumpDup (ingestAux srcs now ps s seen)
      else
        let u := upsertIfAbsent s l now
        if u.2 then bumpIns (ingestAux srcs now ps u.1 (l.identity_key :: seen))
        else bumpDup (ingestAux srcs now ps u.1 (l.identity_key :: seen))

/-- Modelled from the spec: `ingest(raw_postings, source_context)` returning
the updated store and `IngestStats`. -/
def ingest (srcs : List String) (now : Nat) (batch : List RawPosting) (s : Store) :
    Store × IngestStats :=
  let o := ingestAux srcs now batch s []
  (o.store, ⟨batch.length, o.inserted, o.duplicates, o.failures⟩)

/-- Number of raw postings of a batch that fail normalization. -/
def normFailCount (srcs : List String) : List RawPosting → Nat
  | [] => 0
  | p :: ps =>
    normFailCount srcs ps + (match normalize srcs p with | .error _ => 1 | .ok _ => 0)

/-- Number of raw postings of a batch that normalize successfully. -/
def normOkCount (srcs : List String) : List RawPosting → Nat
  | [] => 0
  | p :: ps =>
    normOkCount srcs ps + (match normalize srcs p with | .error _ => 0 | .ok _ => 1)

/-! ## Query Service (spec 4.2 / 4.5) -/

/-- Modelled from the spec: query filter - optional case-insensitive
substring match on title and location, exact match on source and status. -/
structure JobFilter where
  title : Option String
  location : Option String
  source : Option String
  status : Option Status
deriving DecidableEq, Repr

def noFilter : JobFilter := ⟨none, none, none, none⟩

/-- Character-list version of a prefix test, for the substring scan. -/
def headMatch : List Char → List Char → Bool
  | [], _ => true
  | _ :: _, [] => false
  | a :: as, b :: bs => a == b && headMatch as bs

/-- Character-list substring scan. -/
def hasSub (needle : List Char) : List Char → Bool
  | [] => needle.isEmpty
  | b :: bs => headMatch needle (b :: bs) || hasSub needle bs

/-- Case-insensitive substring test on strings. -/
def strContainsCI (hay needle : String) : Bool :=
  hasSub (needle.data.map lowerChar) (hay.data.map lowerChar)

/-- Modelled from the spec: does a row pass the filter? -/
def matchesFilter (f : JobFilter) (r : Row) : Bool :=
  (match f.title with | none => true | some t => strContainsCI r.listing.title t) &&
  (match f.location with | none => true | some loc => strContainsCI r.listing.location loc) &&
  (match f.source with | none => true | some s => decide (r.listing.source = s)) &&
  (match f.status with | none => true | some st => decide (r.status = st))

/-- Modelled from the spec: `query(filter, pagination)` - filter, then
offset/limit over the rows in ascending `numeric_id` (= insertion)
order. -/
def queryStore (s : Store) (f : JobFilter) (offset limit : Nat) : List Row :=
  ((s.rows.filter (matchesFilter f)).drop offset).take limit

/-- Modelled from the spec: the configured page-size maximum of the Query
Service. -/
def MAX_LIMIT : Nat := 100

/-- Effective page size after clamping to the configured maximum. -/
def effLimit (limit : Int) : Nat := min limit.toNat MAX_LIMIT

/-- Modelled from the spec: a returned page plus the further-page hint
derived from `returned_count == limit`. -/
structure JobPage where
  rows : List Row
  hasMore : Bool
deriving DecidableEq, Repr

/-- The page `list_jobs` builds for validated arguments. -/
def pageFor (s : Store) (f : JobFilter) (offset limit : Int) : JobPage :=
  let rs := queryStore s f offset.toNat (effLimit limit)
  ⟨rs, decide (rs.length = effLimit limit)⟩

/-- Modelled from the spec: `list_jobs(filter, offset, limit)` - rejects a
negative offset, clamps the limit to `MAX_LIMIT`, and reports whether a
further page likely exists. -/
def list_jobs (s : Store) (f : JobFilter) (offset limit : Int) :
    Except String JobPage :=
  if offset < 0 then .error "offset must be non-negative"
  else .ok (pageFor s f offset limit)

/-- Is the id sequence of a row list strictly ascending? -/
def idsAscending : List Row → Bool
  | [] => true
  | [_] => true
  | a :: b :: t => decide (a.numeric_id < b.numeric_id) && idsAscending (b :: t)

/-- Store well-formedness: rows in strictly ascending `numeric_id` order and
every assigned id below `nextId` (so ids are never reused). -/
def wfStore (s : Store) : Bool :=
  idsAscending s.rows && s.rows.all fun r => decide (r.numeric_id < s.nextId)

/-! ## Scrape Run Coordinator (spec 4.4) -/

inductive RunState where
  | running
  | succeeded
  | failed
deriving DecidableEq, Repr

/-- Modelled from the spec: a `ScrapeRun` record (identity and state; the
statistics live in `RunStats` below). -/
structure ScrapeRun where
  run_id : Nat
  state : RunState
deriving DecidableEq, Repr

inductive StartResult where
  | started (run_id : Nat)
  | runInProgress
deriving DecidableEq, Repr

/-- Modelled from the spec: the coordinator state - the run history plus the
next run id.  The coordinator is idle exactly when no run is `running`. -/
structure Coord where
  runs : List ScrapeRun
  nextRunId : Nat
deriving DecidableEq, Repr

def initCoord : Coord := ⟨[], 0⟩

def anyRunning (c : Coord) : Bool :=
  c.runs.any fun r => decide (r.state = .running)

def runningCount (c : Coord) : Nat :=
  c.runs.countP fun r => decide (r.state = .running)

/-- Modelled from the spec: `start_run` - rejected with `RunInProgress`
while a run is `running` (checked-and-set in one step), otherwise a fresh
run enters `running`. -/
def startRun (c : Coord) : Coord × StartResult :=
  if anyRunning c then (c, .runInProgress)
  else ({ runs := c.runs ++ [⟨c.nextRunId, .running⟩], nextRunId := c.nextRunId + 1 },
        .started c.nextRunId)

/-- Terminal transition of one run record: a `running` run with the given
id moves to `succeeded` or `failed`; every other record is untouched. -/
def finishOne (rid : Nat) (ok : Bool) (r : ScrapeRun) : ScrapeRun :=
  if r.run_id = rid ∧ r.state = .running then
    { r with state := if ok then .succeeded else .failed }
  else r

/-- Modelled from the spec: terminal transition of one run - a `running` run
with the given id moves to `succeeded` or `failed`. -/
def finishRun (c : Coord) (rid : Nat) (ok : Bool) : Coord :=
  { c with runs := c.runs.map (finishOne rid ok) }

/-- The coordinator states reachable from the initial (idle) state. -/
inductive Reachable : Coord → Prop
  | init : Reachable initCoord
  | start {c} : Reachable c → Reachable (startRun c).1
  | finish {c} (rid : Nat) (ok : Bool) : Reachable c → Reachable (finishRun c rid ok)

/-- Modelled from the spec: `ScrapeRun.stats` recorded at the end of a run,
plus the terminal state. -/
structure RunStats where
  total_fetched : Nat
  new_added : Nat
  duplicates_skipped : Nat
  norm_failures : Nat
  adapter_errors : List String
  final_state : RunState
deriving DecidableEq, Repr

/-- Concatenation of the postings of the successful adapters, in adapter
order. -/
def okConcat : List (String × Except String (List RawPosting)) → List RawPosting
  | [] => []
  | (_, .ok ps) :: rest => ps ++ okConcat rest
  | (_, .error _) :: rest => okConcat rest

/-- Names of the adapters that failed, in adapter order. -/
def failedNames : List (String × Except String (List RawPosting)) → List String
  | [] => []
  | (n, .error _) :: rest => n :: failedNames rest
  | (_, .ok _) :: rest => failedNames rest

/-- Modelled from the spec: one scrape run over the collected adapter
results - failures are recorded per adapter, the successful postings form
one batch handed to `ingest` once, and the run ends `succeeded` whenever
the store-level ingest itself raises no fatal error (the modelled store
never does). -/
def runScrape (srcs : List String) (now : Nat)
    (results : List (String × Except String (List RawPosting))) (s : Store) :
    Store × RunStats :=
  let batch := okConcat results
  let r := ingest srcs now batch s
  (r.1,
   { total_fetched := batch.length
   , new_added := r.2.inserted
   , duplicates_skipped := r.2.duplicates
   , norm_failures := r.2.failures
   , adapter_errors := failedNames results
   , final_state := .succeeded })

/-! ## JobList.vue pagination and fetch state (embedded from the source) -/

/-- `limit` of JobList.vue: `const limit = ref(20)`, never reassigned. -/
def JL_LIMIT : Int := 20

/-- `nextPage` skip update: guarded by `jobsList.length < limit`, then
`skip += limit`. -/
def jlNextSkip (jobsLen : Nat) (skip : Int) : Int :=
  if (jobsLen : Int) < JL_LIMIT then skip else skip + JL_LIMIT

/-- `prevPage` skip update: guarded by `skip > 0`, then
`skip = Math.max(0, skip - limit)`. -/
def jlPrevSkip (skip : Int) : Int :=
  if skip > 0 then max 0 (skip - JL_LIMIT) else skip

/-- One user pagination action; `next` records the length of `jobsList` at
the moment of the click. -/
inductive PageOp where
  | next (jobsLen : Nat)
  | prev
deriving DecidableEq, Repr

/-- Effect of a sequence of pagination actions on `skip`. -/
def jlApplyOps : List PageOp → Int → Int
  | [], skip => skip
  | .next n :: ops, skip => jlApplyOps ops (jlNextSkip n skip)
  | .prev :: ops, skip => jlApplyOps ops (jlPrevSkip skip)

/-- `currentPage` computed property: `Math.floor(skip / limit) + 1`. -/
def jlCurrentPage (skip : Int) : Int := skip / JL_LIMIT + 1

/-- The `:disabled` binding of the Next button:
`isLoading || jobsList.length < limit`. -/
def nextButtonDisabled (isLoading : Bool) (jobsLen limit : Nat) : Bool :=
  isLoading || decide (jobsLen < limit)

/-- A job object as held in `jobsList` after `fetchJobs` spreads the fetched
row and adds `isExpanded`. -/
structure UiJob where
  row : Row
  isExpanded : Bool
deriving DecidableEq, Repr

/-- Reactive state of JobList.vue touched by `fetchJobs`. -/
structure JobListState where
  jobsList : List UiJob
  isLoading : Bool
  errorMessage : String
  skip : Int
deriving DecidableEq, Repr

/-- Outcome of the awaited `api.getJobs` call: either response data (possibly
absent, covered by `response.data || []`) or an error whose
`response.data.detail` and `message` fields are modelled as strings, `""`
standing for an absent/falsy field. -/
inductive FetchOutcome where
  | success (data : Option (List Row))
  | failure (detail message : String)
deriving DecidableEq, Repr

/-- JavaScript `a || b` on strings: `""` is falsy. -/
def jsOr (a b : String) : String := if a = "" then b else a

/-- `fetchJobs` of JobList.vue as a state transformer over the outcome of
the awaited call: the try branch stores the mapped rows, the catch branch
sets the error message and clears the list, the finally branch clears
`isLoading`. -/
def fetchJobs (st : JobListState) (outcome : FetchOutcome) : JobListState :=
  match outcome with
  | .success data =>
    { st with
      isLoading := false
      errorMessage := ""
      jobsList := (data.getD []).map fun r => ⟨r, false⟩ }
  | .failure d m =>
    { st with
      isLoading := false
      errorMessage := jsOr d (jsOr m "Failed to fetch jobs.")
      jobsList := [] }

/-! ## Concrete example inputs -/

/-- The first raw posting of the end-to-end scenario of spec section 8. -/
def rawEngineer : RawPosting :=
  { source := some "a", job_url := some "http://x/1", title := some "Engineer"
  , company := none, location := none, date_posted := none, job_type := none
  , salary_text := none, description_text := none }

/-- The second raw posting of the end-to-end scenario: same `(source,
job_url)`, different title. -/
def rawEngineerDup : RawPosting :=
  { rawEngineer with title := some "Engineer (dup)" }

/-- A raw posting with a recognized source but no company field. -/
def rawNoCompany : RawPosting :=
  { source := some "indeed", job_url := some "http://jobs/42", title := some "Engineer"
  , company := none, location := some "NY", date_posted := none, job_type := none
  , salary_text := none, description_text := none }

/-- A raw posting with no source tag at all. -/
def rawNoSource : RawPosting :=
  { source := none, job_url := some "http://jobs/43", title := some "Engineer"
  , company := some "Acme", location := none, date_posted := none, job_type := none
  , salary_text := none, description_text := none }

/-- A minimal listing with the given key discriminator, for witnesses. -/
def plainListing (u : String) : Listing :=
  { identity_key := .byUrl "a" u, title := "T", company := "C", location := "L"
  , source := "a", date_posted := none, job_type := none, salary_text := none
  , description_text := none, emails := [] }

/-- A five-row store with distinct keys and ids 0..4, for the pagination
witnesses. -/
def store5 : Store :=
  ⟨[ mkRow (plainListing "u0") 0 10, mkRow (plainListing "u1") 1 10
   , mkRow (plainListing "u2") 2 11, mkRow (plainListing "u3") 3 12
   , mkRow (plainListing "u4") 4 12 ], 5⟩

/-- The coordinator state after one successful `start_run` from the initial
state. -/
def coordOneRunning : Coord := (startRun initCoord).1

/-! ## Helper lemmas -/

/-- The pagination invariant of JobList.vue: `skip` stays non-negative and a
multiple of `limit` under both transitions. -/
theorem jlApplyOps_inv (ops : List PageOp) :
    ∀ skip : Int, 0 ≤ skip → JL_LIMIT ∣ skip →
      0 ≤ jlApplyOps ops skip ∧ JL_LIMIT ∣ jlApplyOps ops skip := by
  induction ops with
  | nil => intro skip h0 hd; exact ⟨h0, hd⟩
  | cons op ops ih =>
    intro skip h0 hd
    cases op with
    | next n =>
      refine ih (jlNextSkip n skip) ?_ ?_
      · unfold jlNextSkip; split
        · exact h0
        · have : (0 : Int) ≤ JL_LIMIT := by norm_num [JL_LIMIT]
          omega
      · unfold jlNextSkip; split
        · exact hd
        · exact dvd_add hd (dvd_refl _)
    | prev =>
      refine ih (jlPrevSkip skip) ?_ ?_
      · unfold jlPrevSkip; split
        · exact le_max_left _ _
        · exact h0
      · unfold jlPrevSkip; split
        · rcases le_total (skip - JL_LIMIT) 0 with hle | hle
          · rw [max_eq_left hle]; exact dvd_zero _
          · rw [max_eq_right hle]
            exact dvd_sub hd (dvd_refl _)
        · exact hd

@[simp]
theorem bumpIns_fields (o : IngestOut) :
    (bumpIns o).store = o.store ∧ (bumpIns o).inserted = o.inserted + 1 ∧
    (bumpIns o).duplicates = o.duplicates ∧ (bumpIns o).failures = o.failures :=
  ⟨rfl, rfl, rfl, rfl⟩

theorem hasKey_insertRow_self (s : Store) (l : Listing) (now : Nat) :
    hasKey (insertRow s l now) l.identity_key = true := by
  simp [hasKey, insertRow, mkRow]

theorem hasKey_insertRow_mono (s : Store) (l : Listing) (now : Nat) (k : IdentityKey)
    (h : hasKey s k = true) : hasKey (insertRow s l now) k = true := by
  simp only [hasKey, insertRow, List.any_append, Bool.or_eq_true]
  exact Or.inl h

theorem hasKey_upsert_self (s : Store) (l : Listing) (now : Nat) :
    hasKey (upsertIfAbsent s l now).1 l.identity_key = true := by
  by_cases h : hasKey s l.identity_key
  · simp [upsertIfAbsent, h]
  · simp only [upsertIfAbsent, h, Bool.false_eq_true, if_false]
    exact hasKey_insertRow_self s l now

theorem hasKey_upsert_mono (s : Store) (l : Listing) (now : Nat) (k : IdentityKey)
    (h : hasKey s k = true) : hasKey (upsertIfAbsent s l now).1 k = true := by
  by_cases hk : hasKey s l.identity_key
  · simpa [upsertIfAbsent, hk] using h
  · simp only [upsertIfAbsent, hk, Bool.false_eq_true, if_false]
    exact hasKey_insertRow_mono s l now k h

/-- Keys present in the store stay present through the ingest loop. -/
theorem ingestAux_hasKey_mono (srcs : List String) (now : Nat) :
    ∀ (ps : List RawPosting) (s : Store) (seen : List IdentityKey) (k : IdentityKey),
      hasKey s k = true → hasKey (ingestAux srcs now ps s seen).store k = true := by
  intro ps
  induction ps with
  | nil => intro s seen k h; simpa [ingestAux] using h
  | cons p ps ih =>
    intro s seen k h
    cases hn : normalize srcs p with
    | error e => simpa [ingestAux, hn, bumpFail] using ih s seen k h
    | ok l =>
      by_cases hm : l.identity_key ∈ seen
      · simpa [ingestAux, hn, hm, bumpDup] using ih s seen k h
      · by_cases hk : hasKey s l.identity_key
        · simpa [ingestAux, hn, hm, upsertIfAbsent, hk, bumpDup] using
            ih s (l.identity_key :: seen) k h
        · simpa [ingestAux, hn, hm, upsertIfAbsent, hk, bumpIns] using
            ih (insertRow s l now) (l.identity_key :: seen) k
              (hasKey_insertRow_mono s l now k h)

/-- After the ingest loop, the key of every successfully normalized posting
of the batch is present in the store - provided every key of `seen` was
already present (in particular for the top-level call with `seen = []`). -/
theorem ingestAux_keys_present (srcs : List String) (now : Nat) :
    ∀ (ps : List RawPosting) (s : Store) (seen : List IdentityKey),
      (∀ k ∈ seen, hasKey s k = true) →
      ∀ p ∈ ps, ∀ l, normalize srcs p = .ok l →
        hasKey (ingestAux srcs now ps s seen).store l.identity_key = true := by
  intro ps
  induction ps with
  | nil => intro s seen _ p hp; exact absurd hp (List.not_mem_nil p)
  | cons q ps ih =>
    intro s seen hseen p hp l hl
    cases hn : normalize srcs q with
    | error e =>
      rcases List.mem_cons.mp hp with rfl | hp'
      · rw [hn] at hl; exact absurd hl (by simp)
      · simpa [ingestAux, hn, bumpFail] using ih s seen hseen p hp' l hl
    | ok lq =>
      by_cases hm : lq.identity_key ∈ seen
      · rcases List.mem_cons.mp hp with rfl | hp'
        · have hq : lq.identity_key = l.identity_key := by
            have h2 := hl
            rw [hn] at h2
            injection h2 with h3
            rw [h3]
          rw [← hq]
          simpa [ingestAux, hn, hm, bumpDup] using
            ingestAux_hasKey_mono srcs now ps s seen lq.identity_key
              (hseen lq.identity_key hm)
        · simpa [ingestAux, hn, hm, bumpDup] using ih s seen hseen p hp' l hl
      · have hup : hasKey (upsertIfAbsent s lq now).1 lq.identity_key = true :=
          hasKey_upsert_self s lq now
        have hseen' : ∀ k ∈ lq.identity_key :: seen,
            hasKey (upsertIfAbsent s lq now).1 k = true := by
          intro k hk
          rcases List.mem_cons.mp hk with rfl | hk'
          · exact hup
          · exact hasKey_upsert_mono s lq now k (hseen k hk')
        have hmono := ingestAux_hasKey_mono srcs now ps (upsertIfAbsent s lq now).1
          (lq.identity_key :: seen) lq.identity_key hup
        have hih := fun hp' => ih (upsertIfAbsent s lq now).1 (lq.identity_key :: seen)
          hseen' p hp' l hl
        by_cases hk : hasKey s lq.identity_key
        · rcases List.mem_cons.mp hp with rfl | hp'
          · have hq : lq.identity_key = l.identity_key := by
              have h2 := hl
              rw [hn] at h2
              injection h2 with h3
              rw [h3]
            rw [← hq]
            simpa [ingestAux, hn, hm, upsertIfAbsent, hk, bumpDup] using
              (by simpa [upsertIfAbsent, hk] using hmono)
          · simpa [ingestAux, hn, hm, upsertIfAbsent, hk, bumpDup] using
              (by simpa [upsertIfAbsent, hk] using hih hp')
        · rcases List.mem_cons.mp hp with rfl | hp'
          · have hq : lq.identity_key = l.identity_key := by
              have h2 := hl
              rw [hn] at h2
              injection h2 with h3
              rw [h3]
            rw [← hq]
            simpa [ingestAux, hn, hm, upsertIfAbsent, hk, bumpIns] using
              (by simpa [upsertIfAbsent, hk] using hmono)
          · simpa [ingestAux, hn, hm, upsertIfAbsent, hk, bumpIns] using
              (by simpa [upsertIfAbsent, hk] using hih hp')

/-- When every successfully normalized posting of the batch already has its
key in the store, the ingest loop changes nothing and counts every
normalized posting as a duplicate. -/
theorem ingestAux_all_duplicates (srcs : List String) (now : Nat) :
    ∀ (ps : List RawPosting) (s : Store) (seen : List IdentityKey),
      (∀ p ∈ ps, ∀ l, normalize srcs p = .ok l → hasKey s l.identity_key = true) →
      ingestAux srcs now ps s seen
        = ⟨s, 0, normOkCount srcs ps, normFailCount srcs ps⟩ := by
  intro ps
  induction ps with
  | nil => intro s seen _; simp [ingestAux, normOkCount, normFailCount]
  | cons p ps ih =>
    intro s seen h
    have hps : ∀ q ∈ ps, ∀ l, normalize srcs q = .ok l → hasKey s l.identity_key = true :=
      fun q hq => h q (List.mem_cons_of_mem p hq)
    cases hn : normalize srcs p with
    | error e =>
      simp [ingestAux, hn, bumpFail, ih s seen hps, normOkCount, normFailCount, IngestOut.mk.injEq]
    | ok l =>
      have hk : hasKey s l.identity_key = true := h p (List.mem_cons_self p ps) l hn
      by_cases hm : l.identity_key ∈ seen
      · simp [ingestAux, hn, hm, bumpDup, ih s seen hps, normOkCount, normFailCount]
      · simp [ingestAux, hn, hm, upsertIfAbsent, hk, bumpDup,
              ih s (l.identity_key :: seen) hps, normOkCount, normFailCount]

/-- The ingest loop never inserts more rows than the batch holds
postings. -/
theorem ingestAux_inserted_le (srcs : List String) (now : Nat) :
    ∀ (ps : List RawPosting) (s : Store) (seen : List IdentityKey),
      (ingestAux srcs now ps s seen).inserted ≤ ps.length := by
  intro ps
  induction ps with
  | nil => intro s seen; simp [ingestAux]
  | cons p ps ih =>
    intro s seen
    cases hn : normalize srcs p with
    | error e =>
      simp only [ingestAux, hn, bumpFail, List.length_cons]
      exact Nat.le_succ_of_le (ih s seen)
    | ok l =>
      by_cases hm : l.identity_key ∈ seen
      · simp only [ingestAux, hn, hm, if_true, bumpDup, List.length_cons]
        exact Nat.le_succ_of_le (ih s seen)
      · by_cases hk : hasKey s l.identity_key
        · simp only [ingestAux, hn, hm, if_false, upsertIfAbsent, hk, if_true, bumpDup,
                     List.length_cons]
          exact Nat.le_succ_of_le (ih s (l.identity_key :: seen))
        · simp only [ingestAux, hn, hm, if_false, upsertIfAbsent, hk, Bool.false_eq_true,
                     bumpIns, List.length_cons]
          exact Nat.succ_le_succ (ih (insertRow s l now) (l.identity_key :: seen))

/-- The two normalization counters partition the batch. -/
theorem normCount_partition (srcs : List String) :
    ∀ ps : List RawPosting, normOkCount srcs ps + normFailCount srcs ps = ps.length := by
  intro ps
  induction ps with
  | nil => simp [normOkCount, normFailCount]
  | cons p ps ih =>
    cases hn : normalize srcs p with
    | error e => simp only [normOkCount, normFailCount, hn, List.length_cons]; omega
    | ok l => simp only [normOkCount, normFailCount, hn, List.length_cons]; omega

theorem okConcat_append_error (rs1 : List (String × Except String (List RawPosting)))
    (n : String) (e : String) (rs2 : List (String × Except String (List RawPosting))) :
    okConcat (rs1 ++ (n, Except.error e) :: rs2) = okConcat rs1 ++ okConcat rs2 := by
  induction rs1 with
  | nil => simp [okConcat]
  | cons hd tl ih =>
    obtain ⟨nm, r⟩ := hd
    cases r with
    | ok ps => simp [okConcat, ih]
    | error e2 => simp [okConcat, ih]

theorem okConcat_append_ok (rs1 : List (String × Except String (List RawPosting)))
    (n : String) (ps : List RawPosting) (rs2 : List (String × Except String (List RawPosting))) :
    okConcat (rs1 ++ (n, Except.ok ps) :: rs2) = okConcat rs1 ++ (ps ++ okConcat rs2) := by
  induction rs1 with
  | nil => simp [okConcat]
  | cons hd tl ih =>
    obtain ⟨nm, r⟩ := hd
    cases r with
    | ok qs => simp [okConcat, ih]
    | error e2 => simp [okConcat, ih]

theorem failedNames_append_error (rs1 : List (String × Except String (List RawPosting)))
    (n : String) (e : String) (rs2 : List (String × Except String (List RawPosting))) :
    failedNames (rs1 ++ (n, Except.error e) :: rs2)
      = failedNames rs1 ++ n :: failedNames rs2 := by
  induction rs1 with
  | nil => simp [failedNames]
  | cons hd tl ih =>
    obtain ⟨nm, r⟩ := hd
    cases r with
    | ok ps => simp [failedNames, ih]
    | error e2 => simp [failedNames, ih]

theorem failedNames_append_ok (rs1 : List (String × Except String (List RawPosting)))
    (n : String) (ps : List RawPosting) (rs2 : List (String × Except String (List RawPosting))) :
    failedNames (rs1 ++ (n, Except.ok ps) :: rs2) = failedNames rs1 ++ failedNames rs2 := by
  induction rs1 with
  | nil => simp [failedNames]
  | cons hd tl ih =>
    obtain ⟨nm, r⟩ := hd
    cases r with
    | ok qs => simp [failedNames, ih]
    | error e2 => simp [failedNames, ih]

/-- Mapping a count-decreasing function over a list cannot raise a
`countP`. -/
theorem countP_map_le_of_imp (p : ScrapeRun → Bool) (f : ScrapeRun → ScrapeRun)
    (himp : ∀ x, p (f x) = true → p x = true) :
    ∀ l : List ScrapeRun, (l.map f).countP p ≤ l.countP p := by
  intro l
  induction l with
  | nil => simp
  | cons a t ih =>
    simp only [List.map_cons, List.countP_cons]
    cases hfa : p (f a) with
    | true =>
      have ha := himp a hfa
      have e1 : (if (true = true) then 1 else 0) = 1 := rfl
      rw [e1, if_pos ha]
      omega
    | false =>
      have e0 : (if (false = true) then 1 else 0) = 0 := rfl
      rw [e0, Nat.add_zero]
      exact le_trans ih (Nat.le_add_right _ _)

theorem finishOne_running_imp (rid : Nat) (ok : Bool) (r : ScrapeRun)
    (h : decide ((finishOne rid ok r).state = RunState.running) = true) :
    decide (r.state = RunState.running) = true := by
  by_cases hc : r.run_id = rid ∧ r.state = .running
  · simp [hc.2]
  · simpa [finishOne, hc] using h

/-- The coordinator invariant: every reachable state holds at most one
`running` run. -/
theorem reachable_runningCount_le_one (c : Coord) (h : Reachable c) :
    runningCount c ≤ 1 := by
  induction h with
  | init => simp [runningCount, initCoord]
  | @start c' hc ih =>
    by_cases hr : anyRunning c'
    · simpa [startRun, hr] using ih
    · have hfalse : anyRunning c' = false := by simpa using hr
      have hzero : runningCount c' = 0 := by
        rw [runningCount, List.countP_eq_zero]
        exact List.any_eq_false.mp hfalse
      have h0 : c'.runs.countP (fun r => decide (r.state = RunState.running)) = 0 := hzero
      simp [startRun, hfalse, runningCount, List.countP_append, List.countP_cons, h0]
  | @finish c' rid ok hc ih =>
    have hle := countP_map_le_of_imp (fun r => decide (r.state = RunState.running))
      (finishOne rid ok) (finishOne_running_imp rid ok) c'.runs
    calc runningCount (finishRun c' rid ok)
        = (c'.runs.map (finishOne rid ok)).countP (fun r => decide (r.state = RunState.running)) := rfl
      _ ≤ c'.runs.countP (fun r => decide (r.state = RunState.running)) := hle
      _ ≤ 1 := ih

/-- Filtering with the empty filter keeps every row. -/
theorem filter_noFilter (rs : List Row) : rs.filter (matchesFilter noFilter) = rs :=
  List.filter_eq_self.mpr fun r _ => by simp [matchesFilter, noFilter]

/-- Appending a row with a strictly larger id keeps the id sequence
ascending. -/
theorem idsAscending_append (x : Row) :
    ∀ rows : List Row, idsAscending rows = true →
      (∀ r ∈ rows, r.numeric_id < x.numeric_id) →
      idsAscending (rows ++ [x]) = true := by
  intro rows
  induction rows with
  | nil => intro _ _; simp [idsAscending]
  | cons a t ih =>
    cases t with
    | nil =>
      intro _ hlt
      simp [idsAscending, hlt a (by simp)]
    | cons b t2 =>
      intro hasc hlt
      have h1 : a.numeric_id < b.numeric_id ∧ idsAscending (b :: t2) = true := by
        simpa [idsAscending, Bool.and_eq_true, decide_eq_true_eq] using hasc
      have h2 := ih h1.2 (fun r hr => hlt r (List.mem_cons_of_mem a hr))
      simp only [List.cons_append] at h2 ⊢
      simp [idsAscending, Bool.and_eq_true, decide_eq_true_eq, h1.1]
      simpa [List.cons_append] using h2

/-- `upsert_if_absent` preserves store well-formedness. -/
theorem wfStore_upsert (s : Store) (l : Listing) (now : Nat) (h : wfStore s = true) :
    wfStore (upsertIfAbsent s l now).1 = true := by
  have h2 := h
  rw [wfStore, Bool.and_eq_true] at h2
  obtain ⟨hasc, hall⟩ := h2
  have hall' : ∀ r ∈ s.rows, r.numeric_id < s.nextId := by
    intro r hr
    have := List.all_eq_true.mp hall r hr
    simpa using this
  by_cases hk : hasKey s l.identity_key
  · simpa [upsertIfAbsent, hk] using h
  · simp only [upsertIfAbsent, hk, Bool.false_eq_true, if_false]
    rw [wfStore, Bool.and_eq_true]
    constructor
    · exact idsAscending_append (mkRow l s.nextId now) s.rows hasc hall'
    · rw [List.all_eq_true]
      intro r hr
      have hr2 : r ∈ s.rows ∨ r = mkRow l s.nextId now := by
        simpa [insertRow] using hr
      rcases hr2 with hr' | hr'
      · simp only [insertRow, decide_eq_true_eq]
        exact Nat.lt_succ_of_lt (hall' r hr')
      · simp [hr', insertRow, mkRow]

/-- `upsert_if_absent` never touches existing rows: the stored prefix is
unchanged, so assigned `numeric_id`s are never reassigned. -/
theorem upsert_take_eq (s : Store) (l : Listing) (now : Nat) :
    (upsertIfAbsent s l now).1.rows.take s.rows.length = s.rows := by
  by_cases hk : hasKey s l.identity_key
  · simp [upsertIfAbsent, hk, List.take_length]
  · simp only [upsertIfAbsent, hk, Bool.false_eq_true, if_false, insertRow]
    exact List.take_left s.rows [mkRow l s.nextId now]

end JobSearch

namespace JobSearch

/-! ## Claim theorems -/

/-- C1 (amended): batch-level idempotence of ingestion.  Re-running any
batch against the store produced by the first run leaves the store
unchanged and yields `inserted = 0`, with
`duplicates + normalization_failures = total`; in particular
`duplicates = total` whenever every posting of the batch normalizes.  The
original claim's unconditional `duplicates = total` fails for batches
holding postings that fail normalization (see the counterexample). -/
theorem c1_batch_idempotence (srcs : List String) (now1 now2 : Nat)
    (B : List RawPosting) (s0 : Store) :
    (ingest srcs now2 B (ingest srcs now1 B s0).1).1 = (ingest srcs now1 B s0).1 ∧
    (ingest srcs now2 B (ingest srcs now1 B s0).1).2.inserted = 0 ∧
    (ingest srcs now2 B (ingest srcs now1 B s0).1).2.duplicates
        + (ingest srcs now2 B (ingest srcs now1 B s0).1).2.failures
      = (ingest srcs now2 B (ingest srcs now1 B s0).1).2.total := by
  have hkeys : ∀ p ∈ B, ∀ l, normalize srcs p = .ok l →
      hasKey (ingest srcs now1 B s0).1 l.identity_key = true := by
    intro p hp l hl
    exact ingestAux_keys_present srcs now1 B s0 []
      (fun k hk => absurd hk (List.not_mem_nil k)) p hp l hl
  have hall : ingestAux srcs now2 B (ingest srcs now1 B s0).1 []
      = ⟨(ingest srcs now1 B s0).1, 0, normOkCount srcs B, normFailCount srcs B⟩ :=
    ingestAux_all_duplicates srcs now2 B (ingest srcs now1 B s0).1 [] hkeys
  refine ⟨?_, ?_, ?_⟩
  · show (ingestAux srcs now2 B (ingest srcs now1 B s0).1 []).store = _
    rw [hall]
  · show (ingestAux srcs now2 B (ingest srcs now1 B s0).1 []).inserted = 0
    rw [hall]
  · show (ingestAux srcs now2 B (ingest srcs now1 B s0).1 []).duplicates
        + (ingestAux srcs now2 B (ingest srcs now1 B s0).1 []).failures = B.length
    rw [hall]
    exact normCount_partition srcs B

/-- C1 counterexample to the claim as stated: a batch holding one posting
without a source tag.  The second run returns `inserted = 0` and an
unchanged store, but `duplicates = 0 ≠ 1 = total` because the posting is
counted as a normalization failure, not a duplicate. -/
theorem c1_counterexample :
    ¬((ingest ["indeed"] 1 [rawNoSource]
          (ingest ["indeed"] 0 [rawNoSource] emptyStore).1).2.duplicates
        = (ingest ["indeed"] 1 [rawNoSource]
            (ingest ["indeed"] 0 [rawNoSource] emptyStore).1).2.total) := by
  decide

/-- C3: in-batch collapse with first-seen-wins.  A two-posting batch whose
postings normalize to the same identity key, against a store not holding
that key, yields `total = 2, inserted = 1, duplicates = 1`, appends
exactly one row built from the first occurrence, and (when no existing
row shares the source) `list_jobs` filtered by that source returns
exactly that one row. -/
theorem c3_in_batch_collapse (srcs : List String) (now : Nat) (p1 p2 : RawPosting)
    (l1 l2 : Listing) (s : Store)
    (h1 : normalize srcs p1 = .ok l1) (h2 : normalize srcs p2 = .ok l2)
    (hk : l2.identity_key = l1.identity_key)
    (habs : hasKey s l1.identity_key = false)
    (hsrc : ∀ r ∈ s.rows, r.listing.source ≠ l1.source) :
    (ingest srcs now [p1, p2] s).2 = ⟨2, 1, 1, 0⟩ ∧
    (ingest srcs now [p1, p2] s).1.rows = s.rows ++ [mkRow l1 s.nextId now] ∧
    queryStore (ingest srcs now [p1, p2] s).1 ⟨none, none, some l1.source, none⟩ 0 10
      = [mkRow l1 s.nextId now] := by
  have key : ingestAux srcs now [p1, p2] s [] = ⟨insertRow s l1 now, 1, 1, 0⟩ := by
    simp [ingestAux, h1, h2, upsertIfAbsent, habs, hk, bumpIns, bumpDup]
  have hmain : ingest srcs now [p1, p2] s = (insertRow s l1 now, ⟨2, 1, 1, 0⟩) := by
    simp only [ingest, key]
    rfl
  refine ⟨by rw [hmain], by rw [hmain]; rfl, ?_⟩
  rw [hmain]
  show queryStore (insertRow s l1 now) _ 0 10 = _
  simp only [queryStore, insertRow, List.filter_append, List.drop_zero]
  have hnil : s.rows.filter (matchesFilter ⟨none, none, some l1.source, none⟩) = [] := by
    apply List.filter_eq_nil_iff.mpr
    intro r hr
    simp [matchesFilter, hsrc r hr]
  rw [hnil]
  simp [matchesFilter, mkRow]

/-- Witness for C3: the end-to-end scenario of spec section 8 - two raw
postings with identical `(source, job_url)` from adapter `"a"` against the
empty store give `{total 2, inserted 1, duplicates 1}` and a single stored
row with the first occurrence's title `"Engineer"`. -/
theorem c3_witness :
    normalize ["a"] rawEngineer = .ok (mkListing "a" rawEngineer) ∧
    (ingest ["a"] 0 [rawEngineer, rawEngineerDup] emptyStore).2 = ⟨2, 1, 1, 0⟩ ∧
    queryStore (ingest ["a"] 0 [rawEngineer, rawEngineerDup] emptyStore).1
        ⟨none, none, some "a", none⟩ 0 10
      = [mkRow (mkListing "a" rawEngineer) 0 0] ∧
    (mkListing "a" rawEngineer).title = "Engineer" := by
  have hc := c3_in_batch_collapse ["a"] 0 rawEngineer rawEngineerDup
    (mkListing "a" rawEngineer) (mkListing "a" rawEngineerDup) emptyStore
    rfl rfl rfl rfl
    (fun r hr => absurd hr (List.not_mem_nil r))
  exact ⟨rfl, hc.1, hc.2.2, rfl⟩

/-- C5: partial adapter failure tolerance.  For every collection of adapter
results, the run ends `succeeded`, exactly the failed adapters are
recorded in the run's error list, at most the successful adapters'
posting count is inserted, and an adapter failure neither drops a sibling
adapter's postings from the batch nor adds it to the error list. -/
theorem c5_partial_adapter_failure (srcs : List String) (now : Nat)
    (results : List (String × Except String (List RawPosting))) (s : Store) :
    (runScrape srcs now results s).2.final_state = .succeeded ∧
    (runScrape srcs now results s).2.adapter_errors = failedNames results ∧
    (runScrape srcs now results s).2.new_added ≤ (okConcat results).length ∧
    (∀ rs1 n e rs2, okConcat (rs1 ++ (n, Except.error e) :: rs2)
        = okConcat rs1 ++ okConcat rs2) ∧
    (∀ rs1 n ps rs2, okConcat (rs1 ++ (n, Except.ok ps) :: rs2)
        = okConcat rs1 ++ (ps ++ okConcat rs2)) ∧
    (∀ rs1 n e rs2, failedNames (rs1 ++ (n, Except.error e) :: rs2)
        = failedNames rs1 ++ n :: failedNames rs2) ∧
    (∀ rs1 n ps rs2, failedNames (rs1 ++ (n, Except.ok ps) :: rs2)
        = failedNames rs1 ++ failedNames rs2) := by
  refine ⟨rfl, rfl, ?_, okConcat_append_error, okConcat_append_ok,
    failedNames_append_error, failedNames_append_ok⟩
  show (ingestAux srcs now (okConcat results) s []).inserted ≤ (okConcat results).length
  exact ingestAux_inserted_le srcs now (okConcat results) s []

/-- C2: duplicate-skip preserves the existing row.  When the listing's
`identity_key` is already present, `upsert_if_absent` leaves the store
unchanged: no second row is created, key uniqueness is preserved, and
every row keeps its `status` and `scraped_timestamp`. -/
theorem c2_duplicate_skip_frame (s : Store) (l : Listing) (now : Nat)
    (h : hasKey s l.identity_key = true) :
    (upsertIfAbsent s l now).1 = s ∧
    (upsertIfAbsent s l now).2 = false ∧
    (upsertIfAbsent s l now).1.rows.length = s.rows.length ∧
    (upsertIfAbsent s l now).1.rows.map (fun r => r.status)
      = s.rows.map (fun r => r.status) ∧
    (upsertIfAbsent s l now).1.rows.map (fun r => r.scraped_timestamp)
      = s.rows.map (fun r => r.scraped_timestamp) ∧
    ((s.rows.map fun r => r.listing.identity_key).Nodup →
      ((upsertIfAbsent s l now).1.rows.map fun r => r.listing.identity_key).Nodup) := by
  simp [upsertIfAbsent, h]

/-- Witness for C2 at a concrete store and listing whose key is already
present. -/
theorem c2_witness :
    hasKey store5 (plainListing "u0").identity_key = true ∧
    (upsertIfAbsent store5 (plainListing "u0") 99).1 = store5 ∧
    (upsertIfAbsent store5 (plainListing "u0") 99).1.rows.length = store5.rows.length := by
  have h : hasKey store5 (plainListing "u0").identity_key = true := by decide
  have hc := c2_duplicate_skip_frame store5 (plainListing "u0") 99 h
  exact ⟨h, hc.1, hc.2.2.1⟩

/-- C4: single-run exclusion.  In every reachable coordinator state at most
one run is `running`, and a `start_run` issued while a run is `running`
returns `RunInProgress` and changes no state - so the store can only ever
receive the single active run's batch. -/
theorem c4_single_run_exclusion (c : Coord) :
    (Reachable c → runningCount c ≤ 1) ∧
    (anyRunning c = true → startRun c = (c, .runInProgress)) := by
  constructor
  · exact reachable_runningCount_le_one c
  · intro h
    simp [startRun, h]

/-- Witness for C4 at the reachable state holding one running run. -/
theorem c4_witness :
    runningCount coordOneRunning ≤ 1 ∧
    anyRunning coordOneRunning = true ∧
    startRun coordOneRunning = (coordOneRunning, .runInProgress) := by
  have hreach : Reachable coordOneRunning := Reachable.start Reachable.init
  have h := c4_single_run_exclusion coordOneRunning
  exact ⟨h.1 hreach, by decide, h.2 (by decide)⟩

/-- C6: normalizer defaulting and failure condition.  `normalize` fails
with `NormalizationError` exactly when the source tag is missing or
unrecognized; with a valid source, missing `title`/`company`/`location`
become `"N/A"` and the result is still insertable into any store not
already holding its key. -/
theorem c6_normalizer_defaults (srcs : List String) (raw : RawPosting) (s : String)
    (st : Store) (now : Nat) :
    (normalize srcs raw = .error .missingOrUnknownSource ↔ sourceValid srcs raw = false) ∧
    (raw.source = some s → s ∈ srcs →
      normalize srcs raw = .ok (mkListing s raw) ∧
      (mkListing s raw).title = raw.title.getD "N/A" ∧
      (mkListing s raw).company = raw.company.getD "N/A" ∧
      (mkListing s raw).location = raw.location.getD "N/A" ∧
      (hasKey st (mkListing s raw).identity_key = false →
        (upsertIfAbsent st (mkListing s raw) now).2 = true ∧
        (upsertIfAbsent st (mkListing s raw) now).1.rows.length = st.rows.length + 1)) := by
  constructor
  · cases hsrc : raw.source with
    | none => simp [normalize, sourceValid, hsrc]
    | some t =>
      by_cases ht : t ∈ srcs
      · simp [normalize, sourceValid, hsrc, ht]
      · simp [normalize, sourceValid, hsrc, ht]
  · intro hs hmem
    refine ⟨by simp [normalize, hs, hmem], rfl, rfl, rfl, ?_⟩
    intro hk
    constructor
    · simp [upsertIfAbsent, hk]
    · simp [upsertIfAbsent, hk, insertRow]

/-- Witness for C6: a posting without a source tag is rejected, a posting
with a recognized source but no company normalizes to `company = "N/A"`
and inserts into the empty store. -/
theorem c6_witness :
    normalize ["indeed"] rawNoSource = .error .missingOrUnknownSource ∧
    normalize ["indeed"] rawNoCompany = .ok (mkListing "indeed" rawNoCompany) ∧
    (mkListing "indeed" rawNoCompany).company = "N/A" ∧
    (upsertIfAbsent emptyStore (mkListing "indeed" rawNoCompany) 0).2 = true := by
  have h1 := (c6_normalizer_defaults ["indeed"] rawNoSource "x" emptyStore 0).1
  have h2 := (c6_normalizer_defaults ["indeed"] rawNoCompany "indeed" emptyStore 0).2
    rfl (by simp)
  exact ⟨h1.mpr rfl, h2.1, h2.2.2.1, (h2.2.2.2.2 rfl).1⟩

/-- C7: pagination stability.  Over a well-formed store of 5 rows, the
unfiltered pages at offsets 0, 2, 4 with limit 2 have sizes 2, 2, 1,
their concatenation is exactly the stored row list (each row covered
once, in ascending `numeric_id` order), and `upsert_if_absent` keeps the
store well-formed and never touches (hence never reassigns) existing
rows. -/
theorem c7_pagination_stability (s : Store) (l : Listing) (now : Nat)
    (hwf : wfStore s = true) (h5 : s.rows.length = 5) :
    (queryStore s noFilter 0 2).length = 2 ∧
    (queryStore s noFilter 2 2).length = 2 ∧
    (queryStore s noFilter 4 2).length = 1 ∧
    queryStore s noFilter 0 2 ++ queryStore s noFilter 2 2 ++ queryStore s noFilter 4 2
      = s.rows ∧
    idsAscending (queryStore s noFilter 0 2 ++ queryStore s noFilter 2 2
      ++ queryStore s noFilter 4 2) = true ∧
    wfStore (upsertIfAbsent s l now).1 = true ∧
    (upsertIfAbsent s l now).1.rows.take s.rows.length = s.rows := by
  have hq : ∀ off lim, queryStore s noFilter off lim = (s.rows.drop off).take lim := by
    intro off lim
    simp [queryStore, filter_noFilter]
  have hcov : queryStore s noFilter 0 2 ++ queryStore s noFilter 2 2
      ++ queryStore s noFilter 4 2 = s.rows := by
    rw [hq, hq, hq]
    have h45 : (s.rows.drop 4).take 2 = s.rows.drop 4 :=
      List.take_of_length_le (by simp [List.length_drop, h5])
    have h4 : s.rows.drop 4 = (s.rows.drop 2).drop 2 := by
      rw [List.drop_drop]
    rw [h45, h4, List.drop_zero, List.append_assoc, List.take_append_drop,
      List.take_append_drop]
  have hasc : idsAscending s.rows = true := by
    have h2 := hwf
    rw [wfStore, Bool.and_eq_true] at h2
    exact h2.1
  refine ⟨?_, ?_, ?_, hcov, ?_, wfStore_upsert s l now hwf, upsert_take_eq s l now⟩
  · rw [hq]
    simp [List.length_take, List.length_drop, h5]
  · rw [hq]
    simp [List.length_take, List.length_drop, h5]
  · rw [hq]
    simp [List.length_take, List.length_drop, h5]
  · rw [hcov]
    exact hasc

/-- Witness for C7 at a concrete five-row store and a fresh listing. -/
theorem c7_witness :
    wfStore store5 = true ∧ store5.rows.length = 5 ∧
    (queryStore store5 noFilter 0 2).length = 2 ∧
    (queryStore store5 noFilter 4 2).length = 1 ∧
    queryStore store5 noFilter 0 2 ++ queryStore store5 noFilter 2 2
      ++ queryStore store5 noFilter 4 2 = store5.rows ∧
    wfStore (upsertIfAbsent store5 (plainListing "u9") 3).1 = true := by
  have h := c7_pagination_stability store5 (plainListing "u9") 3 (by decide) (by decide)
  exact ⟨by decide, by decide, h.1, h.2.2.1, h.2.2.2.1, h.2.2.2.2.2.1⟩

/-- C8: Query Service pagination bounds and further-page hint.  `list_jobs`
rejects exactly the negative offsets, clamps the limit to `MAX_LIMIT`,
never returns more rows than the effective limit, and reports a further
page exactly when the returned count equals the effective limit - which
coincides with the JobList Next button being enabled (not disabled) when
not loading. -/
theorem c8_list_jobs_bounds (s : Store) (f : JobFilter) (offset limit : Int) :
    (list_jobs s f offset limit = .error "offset must be non-negative" ↔ offset < 0) ∧
    (0 ≤ offset →
      list_jobs s f offset limit = .ok (pageFor s f offset limit) ∧
      effLimit limit ≤ MAX_LIMIT ∧
      (pageFor s f offset limit).rows.length ≤ effLimit limit ∧
      ((pageFor s f offset limit).hasMore = true ↔
        (pageFor s f offset limit).rows.length = effLimit limit) ∧
      (nextButtonDisabled false (pageFor s f offset limit).rows.length (effLimit limit)
          = false ↔
        (pageFor s f offset limit).rows.length = effLimit limit)) := by
  have hlen : (pageFor s f offset limit).rows.length ≤ effLimit limit := by
    simp only [pageFor, queryStore]
    exact List.length_take_le _ _
  constructor
  · constructor
    · intro h
      by_cases ho : offset < 0
      · exact ho
      · simp [list_jobs, ho] at h
    · intro h
      simp [list_jobs, h]
  · intro h0
    have hnneg : ¬ offset < 0 := not_lt.mpr h0
    refine ⟨by simp [list_jobs, hnneg], min_le_right _ _, hlen, ?_, ?_⟩
    · simp [pageFor]
    · simp only [nextButtonDisabled, Bool.false_or, decide_eq_false_iff_not, not_lt]
      constructor
      · intro h
        exact le_antisymm hlen h
      · intro h
        exact le_of_eq h.symm

/-- Witness for C8: a negative offset is rejected; at offset 0 with
requested limit 250 the effective limit is the 100 cap and the hint and
Next-button state agree with `returned_count = limit`. -/
theorem c8_witness :
    list_jobs store5 noFilter (-1) 250 = .error "offset must be non-negative" ∧
    (0 : Int) ≤ 0 ∧
    list_jobs store5 noFilter 0 250 = .ok (pageFor store5 noFilter 0 250) ∧
    effLimit 250 ≤ MAX_LIMIT ∧
    (pageFor store5 noFilter 0 250).rows.length ≤ effLimit 250 := by
  have hneg := (c8_list_jobs_bounds store5 noFilter (-1) 250).1.mpr (by norm_num)
  have h := (c8_list_jobs_bounds store5 noFilter 0 250).2 le_rfl
  exact ⟨hneg, le_rfl, h.1, h.2.1, h.2.2.1⟩

/-- C9: pagination-state invariant of the JobList component.  Starting at
`skip = 0` with `limit = 20`, any finite sequence of `nextPage`/`prevPage`
invocations keeps `skip` a non-negative multiple of the limit, `prevPage`
at `skip = 0` leaves the state unchanged, and `currentPage` is always at
least 1. -/
theorem c9_joblist_skip_invariant (ops : List PageOp) :
    0 ≤ jlApplyOps ops 0 ∧ JL_LIMIT ∣ jlApplyOps ops 0 ∧
    jlPrevSkip 0 = 0 ∧ 1 ≤ jlCurrentPage (jlApplyOps ops 0) := by
  obtain ⟨h0, hd⟩ := jlApplyOps_inv ops 0 le_rfl (dvd_zero _)
  refine ⟨h0, hd, rfl, ?_⟩
  unfold jlCurrentPage
  have : 0 ≤ jlApplyOps ops 0 / JL_LIMIT :=
    Int.ediv_nonneg h0 (by norm_num [JL_LIMIT])
  omega

/-- C10: error atomicity of `fetchJobs`.  When the underlying call fails,
the list is cleared and the error message is set from the error's
`detail`, `message`, or the fixed fallback; `isLoading` is false after
the call regardless of the outcome. -/
theorem c10_fetchJobs_error_atomicity (st : JobListState) (d m : String)
    (outc : FetchOutcome) :
    (fetchJobs st (.failure d m)).jobsList = [] ∧
    (fetchJobs st (.failure d m)).errorMessage = jsOr d (jsOr m "Failed to fetch jobs.") ∧
    (fetchJobs st outc).isLoading = false := by
  refine ⟨rfl, rfl, ?_⟩
  cases outc <;> rfl

end JobSearch
